import Mathlib

/-!
Verification of the handle-extraction, set-comparison, org-filter and CSV-export
logic of the follow-back checker (src/App.tsx), shallowly embedded in Lean.

Strings are modelled through their character lists (`String.data`).  JavaScript
`toLowerCase` is modelled by ASCII case mapping (`Char.toLower`); the characters
the program ultimately keeps are the ASCII set `[a-z0-9._]`, for which the ASCII
mapping agrees with the JavaScript one.
-/

/-- The set of characters `String.prototype.trim` removes (JS WhiteSpace and
LineTerminator code points). -/
def wsChars : List Char :=
  [' ', '\t', '\n', '\r', '\x0b', '\x0c', '\u00A0', '\u1680',
   '\u2000', '\u2001', '\u2002', '\u2003', '\u2004', '\u2005',
   '\u2006', '\u2007', '\u2008', '\u2009', '\u200A', '\u2028',
   '\u2029', '\u202F', '\u205F', '\u3000', '\uFEFF']

/-- Whether `String.prototype.trim` removes this character. -/
def isSpaceJS (c : Char) : Bool := wsChars.contains c

/-- `line.trim()`: drop leading and trailing whitespace. -/
def trimmed (s : List Char) : List Char :=
  ((s.dropWhile isSpaceJS).reverse.dropWhile isSpaceJS).reverse

/-- Splitting on the regex `/\r?\n/`: a `"\r\n"` pair or a lone `'\n'`
separates lines; a `'\r'` not followed by `'\n'` is an ordinary character. -/
def splitLinesAux (acc : List Char) : List Char → List (List Char)
  | [] => [acc.reverse]
  | '\r' :: '\n' :: rest => acc.reverse :: splitLinesAux [] rest
  | '\n' :: rest => acc.reverse :: splitLinesAux [] rest
  | c :: rest => splitLinesAux (c :: acc) rest

/-- `raw.split(/\r?\n/)` on character lists. -/
def splitLines (s : List Char) : List (List Char) := splitLinesAux [] s

/-- Splitting on `'\n'` alone; after per-line trimming it agrees with
`splitLines` (a dangling `'\r'` is trimmed away). -/
def splitNlAux (acc : List Char) : List Char → List (List Char)
  | [] => [acc.reverse]
  | c :: rest =>
    if c = '\n' then acc.reverse :: splitNlAux [] rest
    else splitNlAux (c :: acc) rest

/-- A character of the normalized handle alphabet `[a-z0-9._]`. -/
def isHandleChar (c : Char) : Bool :=
  (97 ≤ c.toNat && c.toNat ≤ 122) || (48 ≤ c.toNat && c.toNat ≤ 57) ||
    c = '.' || c = '_'

/-- A character of the first-token alphabet `[A-Za-z0-9._]` (the complement of
the separator class in `line.split(/[^a-zA-Z0-9._]+/)`). -/
def isTokenChar (c : Char) : Bool :=
  isHandleChar c || (65 ≤ c.toNat && c.toNat ≤ 90)

/-- `cleanHandleToken` from src/App.tsx: lowercase, strip every character not
in `[a-z0-9._]`, then keep the result only when its length is in `[3, 30]`. -/
def cleanHandleToken (token : List Char) : Option (List Char) :=
  let cleaned := (token.map Char.toLower).filter isHandleChar
  if 3 ≤ cleaned.length ∧ cleaned.length ≤ 30 then some cleaned else none

/-- `line.split(/[^a-zA-Z0-9._]+/)[0] || ''`: the longest prefix of the line
made of characters from `[A-Za-z0-9._]` (empty when the line starts with a
separator). -/
def firstToken (line : List Char) : List Char := line.takeWhile isTokenChar

/-- The handle a single (trimmed, non-empty) line contributes: the whole line
cleaned when that succeeds, otherwise the cleaned first token. -/
def lineHandle (line : List Char) : Option (List Char) :=
  match cleanHandleToken line with
  | some whole => some whole
  | none => cleanHandleToken (firstToken line)

/-- `raw.split(/\r?\n/).map(l => l.trim()).filter(Boolean)`. -/
def rawLines (raw : String) : List (List Char) :=
  ((splitLines raw.data).map trimmed).filter (fun l => !l.isEmpty)

/-- The handles `extractHandles` adds, in line order (before set dedup). -/
def extractList (raw : String) : List String :=
  (rawLines raw).filterMap (fun l => (lineHandle l).map String.mk)

/-- `extractHandles` from src/App.tsx: the set of handles extracted from the
raw pasted text. -/
def extractHandles (raw : String) : Finset String :=
  (extractList raw).toFinset

/-- NonFollowers: handles followed that do not follow back
(`following.forEach(h => { if (!followers.has(h)) nonFollowers.add(h) })`). -/
def nonFollowers (A B : Finset String) : Finset String :=
  A.filter (fun h => h ∉ B)

/-- FollowersOnly: followers not followed back. -/
def followersOnly (A B : Finset String) : Finset String :=
  B.filter (fun h => h ∉ A)

/-- Mutuals: handles in both sets. -/
def mutuals (A B : Finset String) : Finset String :=
  A.filter (fun h => h ∈ B)

/-- The fixed org/brand hint substrings from `looksLikeOrg`. -/
def orgHints : List String :=
  ["official", "inc", "club", "school", "university", "college", "gov",
   "news", "store", "shop", "brand", "team", "miami", "umiami", "herbert",
   "alumni", "football", "soccer", "hockey", "baseball", "barstool",
   "daily", "studio", "photography", "kitchen", "scuba", "kite",
   "freediving", "buildon", "bestparties", "cornerdeli", "ifc"]

/-- Does `hay` start with `pat`? -/
def startsWithL : List Char → List Char → Bool
  | _, [] => true
  | [], _ :: _ => false
  | c :: cs, p :: ps => c = p && startsWithL cs ps

/-- Does `hay` contain `pat` as a contiguous substring
(`String.prototype.includes`)? -/
def containsSub (pat : List Char) : List Char → Bool
  | [] => startsWithL [] pat
  | c :: t => startsWithL (c :: t) pat || containsSub pat t

/-- `h.includes(k)` for strings. -/
def strIncludes (h k : String) : Bool := containsSub k.data h.data

/-- `looksLikeOrg` from src/App.tsx: the handle contains some org hint. -/
def looksLikeOrg (h : String) : Bool := orgHints.any (fun k => strIncludes h k)

/-- `filterList`: when the people-only toggle is on, drop org-looking
handles; otherwise the list is unchanged. -/
def filterList (filterPeopleOnly : Bool) (list : List String) : List String :=
  if filterPeopleOnly then list.filter (fun h => !looksLikeOrg h) else list

/-- `toSorted`: the set's elements as a sorted list.  The source sorts with
`localeCompare`; the order is modelled by the lexicographic order on strings
(the properties proved below depend only on membership, not on the order). -/
def toSorted (s : Finset String) : List String :=
  s.sort (fun x y => x ≤ y)

/-- Everything the component derives from the two text inputs and the
toggle: the five sets of the `useMemo` comparator (which do not read the
toggle) and the three displayed, sorted, optionally filtered lists. -/
structure AppView where
  following : Finset String
  followers : Finset String
  nonFollowers : Finset String
  followersOnly : Finset String
  mutuals : Finset String
  nonFollowersArr : List String
  followersOnlyArr : List String
  mutualsArr : List String

/-- The derivation pipeline of the `App` component body. -/
def appView (followingText followersText : String) (filterPeopleOnly : Bool) :
    AppView :=
  let following := extractHandles followingText
  let followers := extractHandles followersText
  let nF := nonFollowers following followers
  let fO := followersOnly following followers
  let mu := mutuals following followers
  { following := following
    followers := followers
    nonFollowers := nF
    followersOnly := fO
    mutuals := mu
    nonFollowersArr := filterList filterPeopleOnly (toSorted nF)
    followersOnlyArr := filterList filterPeopleOnly (toSorted fO)
    mutualsArr := filterList filterPeopleOnly (toSorted mu) }

/-- One CSV field: wrapped in double quotes, embedded quotes doubled
(`c.replace(/"/g, '""')` inside `"..."`). -/
def csvField (s : String) : String :=
  "\"" ++
    String.mk (s.data.foldr
      (fun ch acc => if ch = '"' then '"' :: '"' :: acc else ch :: acc) []) ++
    "\""

/-- The CSV document of `downloadCSV`: fields joined by commas, rows by
newlines. -/
def csvOfRows (rows : List (List String)) : String :=
  String.intercalate "\n" (rows.map (fun r => String.intercalate "," (r.map csvField)))

/-- The rows `exportCSV` builds: the fixed header, then one row per index up
to the longest column, each column padded with `''` (`arr[i] ?? ''`). -/
def exportRows (nF fO mu : List String) : List (List String) :=
  let maxLen := max nF.length (max fO.length mu.length)
  ["you_follow_but_they_dont_follow_you",
   "they_follow_you_but_you_dont_follow", "mutuals"] ::
    (List.range maxLen).map (fun i => [nF.getD i "", fO.getD i "", mu.getD i ""])

/-- A string that is already a valid normalized handle: only characters from
`[a-z0-9._]`, length between 3 and 30. -/
def validHandleStr (l : String) : Bool :=
  l.data.all isHandleChar && (3 ≤ l.data.length && l.data.length ≤ 30)

/-- A text block with one entry per line: the entries joined by `'\n'`. -/
def joinLines : List String → String
  | [] => ""
  | [l] => l
  | l :: l' :: rest => l ++ "\n" ++ joinLines (l' :: rest)

theorem splitLinesAux_cons (acc : List Char) (c : Char) (rest : List Char)
    (hn : ¬ c = '\n') (hr : ¬ (c = '\r' ∧ ∃ r, rest = '\n' :: r)) :
    splitLinesAux acc (c :: rest) = splitLinesAux (c :: acc) rest := by
  by_cases h : c = '\r'
  · subst h
    cases rest with
    | nil => rfl
    | cons d r =>
      by_cases hd : d = '\n'
      · exact absurd ⟨rfl, r, by rw [hd]⟩ hr
      · simp [splitLinesAux, hd]
  · simp [splitLinesAux, h, hn]

theorem trimmed_append_ws (c : Char) (hc : isSpaceJS c = true) (xs : List Char) :
    trimmed (xs ++ [c]) = trimmed xs := by
  unfold trimmed
  rw [List.dropWhile_append]
  by_cases h : (xs.dropWhile isSpaceJS).isEmpty
  · rw [if_pos h]
    rw [List.isEmpty_iff] at h
    rw [h]
    simp [List.dropWhile, hc]
  · rw [if_neg h]
    simp [List.reverse_append, List.dropWhile_cons, hc]

theorem splitNl_trim_eq (acc s : List Char) :
    (splitLinesAux acc s).map trimmed = (splitNlAux acc s).map trimmed := by
  induction acc, s using splitLinesAux.induct with
  | case1 acc => rfl
  | case2 acc rest ih =>
    have h1 : splitLinesAux acc ('\r' :: '\n' :: rest) =
        acc.reverse :: splitLinesAux [] rest := rfl
    have h2 : splitNlAux acc ('\r' :: '\n' :: rest) =
        ('\r' :: acc).reverse :: splitNlAux [] rest := by
      simp [splitNlAux]
    rw [h1, h2, List.map_cons, List.map_cons, ih]
    rw [List.reverse_cons, trimmed_append_ws '\r' (by decide)]
  | case3 acc rest ih =>
    have h2 : splitNlAux acc ('\n' :: rest) = acc.reverse :: splitNlAux [] rest := by
      simp [splitNlAux]
    rw [show splitLinesAux acc ('\n' :: rest) = acc.reverse :: splitLinesAux [] rest from rfl,
      h2, List.map_cons, List.map_cons, ih]
  | case4 acc c rest h1 h2 ih =>
    have hn : ¬ c = '\n' := fun h => h2 h
    have e1 : splitLinesAux acc (c :: rest) = splitLinesAux (c :: acc) rest := by
      apply splitLinesAux_cons acc c rest hn
      rintro ⟨hc, r, hr⟩
      exact h1 r hc hr
    have e2 : splitNlAux acc (c :: rest) = splitNlAux (c :: acc) rest := by
      simp [splitNlAux, hn]
    rw [e1, e2, ih]

theorem splitNlAux_append (acc a b : List Char) :
    splitNlAux acc (a ++ '\n' :: b) = splitNlAux acc a ++ splitNlAux [] b := by
  induction a generalizing acc with
  | nil => simp [splitNlAux]
  | cons c t ih =>
    by_cases h : c = '\n'
    · subst h
      simp [splitNlAux, ih]
    · simp [splitNlAux, h, ih]

theorem rawLines_append (a b : String) :
    rawLines (a ++ "\n" ++ b) = rawLines a ++ rawLines b := by
  unfold rawLines splitLines
  have hdata : (a ++ "\n" ++ b).data = a.data ++ '\n' :: b.data := by
    simp [String.data_append]
  rw [hdata, splitNl_trim_eq, splitNlAux_append, List.map_append, List.filter_append,
    ← splitNl_trim_eq, ← splitNl_trim_eq]

theorem extractList_append (a b : String) :
    extractList (a ++ "\n" ++ b) = extractList a ++ extractList b := by
  unfold extractList
  rw [rawLines_append, List.filterMap_append]

theorem extractHandles_append (a b : String) :
    extractHandles (a ++ "\n" ++ b) = extractHandles a ∪ extractHandles b := by
  unfold extractHandles
  rw [extractList_append, List.toFinset_append]

theorem splitLinesAux_no_nl (acc s : List Char) (h : '\n' ∉ s) :
    splitLinesAux acc s = [acc.reverse ++ s] := by
  induction s generalizing acc with
  | nil => simp [splitLinesAux]
  | cons c t ih =>
    have hc : ¬ c = '\n' := fun e => h (e ▸ List.mem_cons_self c t)
    have ht : '\n' ∉ t := fun m => h (List.mem_cons_of_mem _ m)
    rw [splitLinesAux_cons acc c t hc ?_]
    · rw [ih (c :: acc) ht]
      simp
    · rintro ⟨hcr, r, hr⟩
      exact ht (hr ▸ List.mem_cons_self '\n' r)

theorem dropWhile_all_false (p : Char → Bool) (s : List Char)
    (h : ∀ c ∈ s, p c = false) : s.dropWhile p = s := by
  cases s with
  | nil => rfl
  | cons c t =>
    have := h c (List.mem_cons_self c t)
    rw [List.dropWhile_cons_of_neg (by simp [this])]

theorem trimmed_self (s : List Char) (h : ∀ c ∈ s, isSpaceJS c = false) :
    trimmed s = s := by
  unfold trimmed
  rw [dropWhile_all_false _ s h,
    dropWhile_all_false _ _ (fun c hc => h c (List.mem_reverse.mp hc)),
    List.reverse_reverse]

theorem rawLines_single (line : String) (h : '\n' ∉ line.data) :
    rawLines line =
      if (trimmed line.data).isEmpty = true then [] else [trimmed line.data] := by
  unfold rawLines splitLines
  rw [splitLinesAux_no_nl [] line.data h]
  by_cases he : (trimmed line.data).isEmpty
  · simp [List.filter_cons, he]
  · simp [List.filter_cons, he]

theorem cleanHandleToken_some (t u : List Char) (h : cleanHandleToken t = some u) :
    (∀ c ∈ u, isHandleChar c = true) ∧ 3 ≤ u.length ∧ u.length ≤ 30 := by
  simp only [cleanHandleToken] at h
  split at h
  · cases h
    refine ⟨fun c hc => (List.mem_filter.mp hc).2, ?_, ?_⟩
    · exact (by assumption : 3 ≤ _ ∧ _ ≤ 30).1
    · exact (by assumption : 3 ≤ _ ∧ _ ≤ 30).2
  · cases h

theorem lineHandle_some (l u : List Char) (h : lineHandle l = some u) :
    cleanHandleToken l = some u ∨ cleanHandleToken (firstToken l) = some u := by
  unfold lineHandle at h
  cases hw : cleanHandleToken l with
  | some w =>
    rw [hw] at h
    simp at h
    left
    exact congrArg some h
  | none =>
    rw [hw] at h
    simp at h
    right
    exact h

theorem toLower_handleChar (c : Char) (h : isHandleChar c = true) : c.toLower = c := by
  have hrange : c.toNat < 65 ∨ 90 < c.toNat := by
    simp only [isHandleChar, Bool.or_eq_true, Bool.and_eq_true, decide_eq_true_eq] at h
    rcases h with ((⟨h1, h2⟩ | ⟨h1, h2⟩) | rfl) | rfl
    · right
      omega
    · left
      omega
    · left
      decide
    · right
      decide
  have hno : ¬ (c.toNat ≥ 65 ∧ c.toNat ≤ 90) := by omega
  simp [Char.toLower, hno]

theorem handleChar_not_ws (c : Char) (h : isHandleChar c = true) : isSpaceJS c = false := by
  by_contra hw
  rw [Bool.not_eq_false] at hw
  have hmem : c ∈ wsChars := by
    simpa [isSpaceJS] using hw
  fin_cases hmem <;> exact absurd h (by decide)

theorem cleanHandleToken_self (l : List Char) (hall : ∀ c ∈ l, isHandleChar c = true)
    (h3 : 3 ≤ l.length) (h30 : l.length ≤ 30) :
    cleanHandleToken l = some l := by
  have hmap : l.map Char.toLower = l := by
    rw [List.map_congr_left (fun c hc => toLower_handleChar c (hall c hc))]
    simp
  have hfil : l.filter isHandleChar = l := List.filter_eq_self.mpr hall
  simp only [cleanHandleToken, hmap, hfil]
  rw [if_pos ⟨h3, h30⟩]

theorem extract_single (line : String) (hnl : '\n' ∉ line.data) (u : List Char)
    (hclean : cleanHandleToken (trimmed line.data) = some u) :
    extractHandles line = {String.mk u} := by
  have hne : (trimmed line.data).isEmpty = false := by
    cases e : trimmed line.data with
    | nil =>
      rw [e] at hclean
      rw [show cleanHandleToken [] = none by decide] at hclean
      exact Option.noConfusion hclean
    | cons a t => rfl
  have hlh : lineHandle (trimmed line.data) = some u := by
    unfold lineHandle
    rw [hclean]
  unfold extractHandles extractList
  rw [rawLines_single line hnl, hne]
  simp [hlh]

theorem extractHandles_single_valid (l : String) (hv : validHandleStr l = true) :
    extractHandles l = {l} := by
  simp only [validHandleStr, Bool.and_eq_true, List.all_eq_true, decide_eq_true_eq] at hv
  obtain ⟨hall, h3, h30⟩ := hv
  have hnl : '\n' ∉ l.data := fun hm => absurd (hall _ hm) (by decide)
  have htr : trimmed l.data = l.data :=
    trimmed_self _ (fun c hc => handleChar_not_ws c (hall c hc))
  have := extract_single l hnl l.data (by rw [htr]; exact cleanHandleToken_self l.data hall h3 h30)
  rwa [show String.mk l.data = l from rfl] at this

theorem startsWithL_iff (hay pat : List Char) :
    startsWithL hay pat = true ↔ ∃ rest, hay = pat ++ rest := by
  induction pat generalizing hay with
  | nil =>
    cases hay <;> simp [startsWithL]
  | cons p ps ih =>
    cases hay with
    | nil => simp [startsWithL]
    | cons c cs =>
      simp only [startsWithL, Bool.and_eq_true, decide_eq_true_eq, ih]
      constructor
      · rintro ⟨rfl, rest, rfl⟩
        exact ⟨rest, rfl⟩
      · rintro ⟨rest, hr⟩
        rw [List.cons_append] at hr
        cases hr
        exact ⟨rfl, rest, rfl⟩

theorem containsSub_iff (pat hay : List Char) :
    containsSub pat hay = true ↔ ∃ pre post, hay = pre ++ pat ++ post := by
  induction hay with
  | nil =>
    simp only [containsSub, startsWithL_iff]
    constructor
    · rintro ⟨rest, hr⟩
      exact ⟨[], rest, hr⟩
    · rintro ⟨pre, post, hp⟩
      obtain ⟨hpp, hpost⟩ := List.append_eq_nil.mp hp.symm
      obtain ⟨hpre, hpat⟩ := List.append_eq_nil.mp hpp
      exact ⟨[], by simp [hpat]⟩
  | cons c t ih =>
    simp only [containsSub, Bool.or_eq_true, startsWithL_iff, ih]
    constructor
    · rintro (⟨rest, hr⟩ | ⟨pre, post, hp⟩)
      · exact ⟨[], rest, by simpa using hr⟩
      · exact ⟨c :: pre, post, by rw [hp]; rfl⟩
    · rintro ⟨pre, post, hp⟩
      cases pre with
      | nil =>
        left
        exact ⟨post, by simpa using hp⟩
      | cons d pre' =>
        right
        rw [List.cons_append, List.cons_append] at hp
        cases hp
        exact ⟨pre', post, rfl⟩

theorem not_mem_filterList_true (h : String) (horg : looksLikeOrg h = true)
    (L : List String) : h ∉ filterList true L := by
  intro hm
  unfold filterList at hm
  rw [if_pos rfl] at hm
  have := (List.mem_filter.mp hm).2
  rw [horg] at this
  exact absurd this (by decide)

theorem mem_filterList_false (h : String) (L : List String) :
    h ∈ filterList false L ↔ h ∈ L := by
  unfold filterList
  rw [if_neg (by decide)]

theorem mem_toSorted (s : Finset String) (h : String) : h ∈ toSorted s ↔ h ∈ s :=
  Finset.mem_sort _

/-- C1: every handle extracted from any raw text is normalized: it consists
only of characters from `[a-z0-9._]` (hence is lowercase, each character being
fixed by lowercasing) and its length is between 3 and 30 inclusive. -/
theorem C1_extract_normalized (raw : String) (h : String)
    (hmem : h ∈ extractHandles raw) :
    (∀ c ∈ h.data, isHandleChar c = true) ∧ (∀ c ∈ h.data, c.toLower = c) ∧
      3 ≤ h.length ∧ h.length ≤ 30 := by
  unfold extractHandles at hmem
  rw [List.mem_toFinset] at hmem
  unfold extractList at hmem
  rw [List.mem_filterMap] at hmem
  obtain ⟨line, hline, hmap⟩ := hmem
  rw [Option.map_eq_some'] at hmap
  obtain ⟨u, hu, hmk⟩ := hmap
  have hv : (∀ c ∈ u, isHandleChar c = true) ∧ 3 ≤ u.length ∧ u.length ≤ 30 := by
    rcases lineHandle_some line u hu with hc | hc
    · exact cleanHandleToken_some _ _ hc
    · exact cleanHandleToken_some _ _ hc
  have hdata : h.data = u := by rw [← hmk]
  have hlen : h.length = u.length := by
    rw [← hmk]
    rfl
  refine ⟨fun c hc => hv.1 c (hdata ▸ hc),
    fun c hc => toLower_handleChar c (hv.1 c (hdata ▸ hc)), ?_, ?_⟩
  · rw [hlen]
    exact hv.2.1
  · rw [hlen]
    exact hv.2.2

/-- Witness for C1 at the concrete input `"alice"`. -/
theorem C1_extract_normalized_witness :
    (∀ c ∈ ("alice" : String).data, isHandleChar c = true) ∧
      (∀ c ∈ ("alice" : String).data, c.toLower = c) ∧
      3 ≤ ("alice" : String).length ∧ ("alice" : String).length ≤ 30 :=
  C1_extract_normalized ("alice") ("alice") (by decide)

/-- C2: the three comparator outputs are pairwise disjoint, non-followers and
mutuals partition Following, and followers-only and mutuals partition
Followers. -/
theorem C2_comparator_partition (A B : Finset String) :
    nonFollowers A B ∩ followersOnly A B = ∅ ∧
      nonFollowers A B ∩ mutuals A B = ∅ ∧
      followersOnly A B ∩ mutuals A B = ∅ ∧
      nonFollowers A B ∪ mutuals A B = A ∧
      followersOnly A B ∪ mutuals A B = B := by
  refine ⟨?_, ?_, ?_, ?_, ?_⟩ <;>
    · ext h
      simp only [nonFollowers, followersOnly, mutuals, Finset.mem_inter,
        Finset.mem_union, Finset.mem_filter, Finset.not_mem_empty, iff_false,
        not_and]
      tauto

/-- C3: the comparison is symmetric in the defined way: mutuals are unchanged
when the two sets are swapped, and the non-followers of (A, B) are exactly the
followers-only of (B, A). -/
theorem C3_comparator_symmetry (A B : Finset String) :
    mutuals A B = mutuals B A ∧ nonFollowers A B = followersOnly B A := by
  constructor
  · ext h
    simp only [mutuals, Finset.mem_filter]
    tauto
  · rfl

/-- C4: extraction is idempotent on already-clean input: a block with one
valid handle per line extracts to exactly that set of handles. -/
theorem C4_idempotent_on_clean (ls : List String)
    (hv : ∀ l ∈ ls, validHandleStr l = true) :
    extractHandles (joinLines ls) = ls.toFinset := by
  induction ls with
  | nil => decide
  | cons l rest ih =>
    cases rest with
    | nil =>
      rw [show joinLines [l] = l from rfl,
        extractHandles_single_valid l (hv l (List.mem_cons_self l []))]
      simp
    | cons l' rest' =>
      rw [show joinLines (l :: l' :: rest') = l ++ "\n" ++ joinLines (l' :: rest')
            from rfl,
        extractHandles_append,
        extractHandles_single_valid l (hv l (List.mem_cons_self l (l' :: rest'))),
        ih (fun x hx => hv x (List.mem_cons_of_mem _ hx))]
      rw [show ({l} : Finset String) = insert l ∅ from rfl, Finset.insert_union,
        Finset.empty_union]
      exact List.toFinset_cons.symm

/-- Witness for C4 at the concrete clean input `alice` / `bob_1`. -/
theorem C4_idempotent_on_clean_witness :
    extractHandles (joinLines ["alice", "bob_1"]) =
      (["alice", "bob_1"] : List String).toFinset :=
  C4_idempotent_on_clean (["alice", "bob_1"]) (by decide)

/-- C5 counterexample: the claim that `extractHandles` returns `john` for the
line `John Doe | @john_doe_23` is false on the code: whole-line cleaning gives
`johndoejohn_doe_23` (18 characters, which is within `[3, 30]`, not the 33 the
spec computes), so the whole-line attempt succeeds. -/
theorem C5_counterexample :
    extractHandles ("John Doe | @john_doe_23") ≠ ({"john"} : Finset String) := by
  decide

/-- C5 amended: for the single line `John Doe | @john_doe_23`, whole-line
normalization succeeds with `johndoejohn_doe_23` (18 characters), so that is
the extracted handle and first-token extraction is never reached. -/
theorem C5_whole_line_succeeds :
    extractHandles ("John Doe | @john_doe_23") =
      ({"johndoejohn_doe_23"} : Finset String) := by
  decide

/-- C6: whole-line success short-circuits first-token extraction: a single
line whose trimmed whole-line normalization succeeds contributes exactly that
whole-line result, whatever the first token would have produced. -/
theorem C6_whole_line_short_circuit (line : String) (hnl : '\n' ∉ line.data)
    (u : List Char) (hclean : cleanHandleToken (trimmed line.data) = some u) :
    extractHandles line = {String.mk u} :=
  extract_single line hnl u hclean

/-- Witness for C6 at the concrete line `ab@cd`: the whole line cleans to
`abcd` (valid), while its first token `ab` would have been too short. -/
theorem C6_whole_line_short_circuit_witness :
    extractHandles ("ab@cd") = {String.mk ['a', 'b', 'c', 'd']} :=
  C6_whole_line_short_circuit ("ab@cd") (by decide) ['a', 'b', 'c', 'd'] (by decide)

/-- C7: the CSV export pads the three fixed-order columns with empty strings
to the longest column's length, wraps each field in double quotes doubling
embedded quotes, and on NonFollowers = a, FollowersOnly = empty,
Mutuals = b, c produces exactly the two data rows a,"",b and "","",c. -/
theorem C7_csv_export :
    exportRows ["a"] [] ["b", "c"] =
      [["you_follow_but_they_dont_follow_you",
        "they_follow_you_but_you_dont_follow", "mutuals"],
       ["a", "", "b"], ["", "", "c"]] ∧
      csvOfRows (exportRows ["a"] [] ["b", "c"]) =
        "\"you_follow_but_they_dont_follow_you\",\"they_follow_you_but_you_dont_follow\",\"mutuals\"\n\"a\",\"\",\"b\"\n\"\",\"\",\"c\"" ∧
      csvField ("x\"y") = "\"x\"\"y\"" ∧
      ∀ nF fO mu : List String,
        (exportRows nF fO mu).length = 1 + max nF.length (max fO.length mu.length) ∧
          ((exportRows nF fO mu).drop 1).all (fun r => r.length == 3) = true := by
  refine ⟨by decide, by decide, by decide, fun nF fO mu => ⟨?_, ?_⟩⟩
  · simp only [exportRows, List.length_cons, List.length_map, List.length_range]
    omega
  · rw [List.all_eq_true]
    intro r hr
    simp only [exportRows, List.drop_succ_cons, List.drop_zero] at hr
    obtain ⟨i, hi, rfl⟩ := List.mem_map.mp hr
    rfl

/-- C8: `looksLikeOrg` holds exactly when the handle contains one of the fixed
hint substrings; the org-filter toggle leaves the Following / Followers sets
and the three comparison sets untouched and only filters the displayed lists:
`bookclub99` (containing the hint `club`) is excluded from every displayed
list when the toggle is on and is displayed iff it is a mutual when off. -/
theorem C8_org_filter_frame (ft fs : String) :
    (appView ft fs true).following = (appView ft fs false).following ∧
      (appView ft fs true).followers = (appView ft fs false).followers ∧
      (appView ft fs true).nonFollowers = (appView ft fs false).nonFollowers ∧
      (appView ft fs true).followersOnly = (appView ft fs false).followersOnly ∧
      (appView ft fs true).mutuals = (appView ft fs false).mutuals ∧
      (∀ h : String, looksLikeOrg h = true ↔
        ∃ k ∈ orgHints, ∃ pre post : List Char, h.data = pre ++ k.data ++ post) ∧
      looksLikeOrg ("bookclub99") = true ∧
      ("bookclub99" : String) ∉ (appView ft fs true).nonFollowersArr ∧
      ("bookclub99" : String) ∉ (appView ft fs true).followersOnlyArr ∧
      ("bookclub99" : String) ∉ (appView ft fs true).mutualsArr ∧
      (("bookclub99" : String) ∈ (appView ft fs false).mutualsArr ↔
        "bookclub99" ∈ mutuals (extractHandles ft) (extractHandles fs)) := by
  have horg : looksLikeOrg ("bookclub99") = true := by decide
  refine ⟨rfl, rfl, rfl, rfl, rfl, ?_, horg, ?_, ?_, ?_, ?_⟩
  · intro h
    simp only [looksLikeOrg, strIncludes, List.any_eq_true, containsSub_iff]
  · exact not_mem_filterList_true _ horg _
  · exact not_mem_filterList_true _ horg _
  · exact not_mem_filterList_true _ horg _
  · rw [show (appView ft fs false).mutualsArr =
        filterList false (toSorted (mutuals (extractHandles ft) (extractHandles fs)))
        from rfl,
      mem_filterList_false, mem_toSorted]

/-- C9: extraction is a homomorphism from line concatenation to set union. -/
theorem C9_concat_union (a b : String) :
    extractHandles (a ++ "\n" ++ b) = extractHandles a ∪ extractHandles b :=
  extractHandles_append a b

/-- C10: each input line contributes at most one handle: the extracted set is
no larger than the number of non-empty trimmed lines. -/
theorem C10_card_le_lines (raw : String) :
    (extractHandles raw).card ≤ (rawLines raw).length := by
  unfold extractHandles
  refine le_trans (List.toFinset_card_le _) ?_
  unfold extractList
  exact List.length_filterMap_le _ _
